import Mathlib

/-!
Verification of the ScrAIbe repository's diarization normalizer and audio
processor against its specification.

The embedding follows the Python sources:
  * `src/scraibe/diarisation.py`  — `Diariser.format_diarization_output`,
    `Diariser._get_diarisation_kwargs`
  * `src/autotranscript/audio.py` — `AudioProcessor.__init__`,
    `AudioProcessor.cut`, `AudioProcessor.load_audio`

Time stamps are modelled as exact rationals (the source only copies them
around in the normalizer; `cut` multiplies and floors/ceils, which is exact
arithmetic on the representable inputs considered here).
-/

/-- One entry of a raw diarization trace: a time interval (`start`, `stop`)
together with a speaker label.  The Python code iterates
`dia.itertracks(yield_label=True)` producing `(segment, track, speaker)`
triples; the track component is never used by the normalizer, so it is
omitted from the record. -/
structure Triple where
  start : ℚ
  stop : ℚ
  speaker : String
deriving DecidableEq

/-- The structured output of `Diariser.format_diarization_output`:
`{"speakers": [...], "segments": [[start, end], ...]}`. -/
structure DiarizationOutput where
  speakers : List String
  segments : List (ℚ × ℚ)
deriving DecidableEq

/-- Python's `enumerate`, starting at index `i`. -/
def pyEnum {α : Type} (i : ℕ) : List α → List (ℕ × α)
  | [] => []
  | a :: as => (i, a) :: pyEnum (i + 1) as

/-- Mutable state of the normalization loop in
`format_diarization_output`: the accumulated `normalized_output` list,
`index_start_speaker` and `current_speaker`.  (`index_end_speaker` is
written immediately before each use and carries no state across
iterations, so it is kept local to the step.) -/
structure NormState where
  out : List (ℕ × ℕ × String)
  index_start_speaker : ℕ
  current_speaker : String

/-- One iteration of the `for i, (_, _, speaker) in enumerate(dia_list)`
loop body, where `n` is `len(dia_list)`.  Mirrors the three `if`
statements of the source in order. -/
def normStep (n : ℕ) (s : NormState) (p : ℕ × Triple) : NormState :=
  let i := p.1
  let speaker := p.2.speaker
  let cur0 := if i = 0 then speaker else s.current_speaker
  let s1 : NormState :=
    if speaker ≠ cur0 then
      { out := s.out ++ [(s.index_start_speaker, i - 1, cur0)],
        index_start_speaker := i,
        current_speaker := speaker }
    else
      { s with current_speaker := cur0 }
  if i = n - 1 then
    { s1 with out := s1.out ++ [(s1.index_start_speaker, i, s1.current_speaker)] }
  else
    s1

/-- The `normalized_output` list built by `format_diarization_output`:
the `len(dia_list) == 1` special case, otherwise the enumeration loop
starting from the initial state `([], 0, "")` (Python's
`index_start_speaker = 0`, `current_speaker = str()`). -/
def normalizedOutput (dia_list : List Triple) : List (ℕ × ℕ × String) :=
  if dia_list.length = 1 then
    [(0, 0, (dia_list.getD 0 ⟨0, 0, ""⟩).speaker)]
  else
    ((pyEnum 0 dia_list).foldl (normStep dia_list.length) ⟨[], 0, ""⟩).out

/-- `Diariser.format_diarization_output`: normalize a raw trace, then read
each run `(index_start, index_end, speaker)` back through `dia_list` to
produce the `segments` and `speakers` lists (appended pairwise in one
loop in the source, hence index-aligned by construction). -/
def format_diarization_output (dia_list : List Triple) : DiarizationOutput :=
  { speakers := (normalizedOutput dia_list).map (fun o => o.2.2),
    segments := (normalizedOutput dia_list).map (fun o =>
      ((dia_list.getD o.1 ⟨0, 0, ""⟩).start, (dia_list.getD o.2.1 ⟨0, 0, ""⟩).stop)) }

/-- Reference recursion extracted from the loop for indices `j ≥ 1`:
scanning the remaining triples (whose first element sits at index `j`)
with a current run starting at index `start` and labelled `cur`, produce
the run list `(first index, last index, speaker)` with the final run
closed at the end of the list. -/
def runsFrom (start j : ℕ) (cur : String) : List Triple → List (ℕ × ℕ × String)
  | [] => [(start, j - 1, cur)]
  | t :: ts =>
    if t.speaker = cur then
      runsFrom start (j + 1) cur ts
    else
      (start, j - 1, cur) :: runsFrom j (j + 1) t.speaker ts

/-- Specification-side merge, following the spec's words: accumulate the
current maximal run's first interval start `a`, last interval end `b` and
speaker `cur`; a triple with the same speaker extends the run, a triple
with a different speaker closes it. -/
def mergeAux (a b : ℚ) (cur : String) : List Triple → List (ℚ × ℚ × String)
  | [] => [(a, b, cur)]
  | t :: ts =>
    if t.speaker = cur then
      mergeAux a t.stop cur ts
    else
      (a, b, cur) :: mergeAux t.start t.stop t.speaker ts

/-- Specification-side normalizer: each maximal run of consecutive
same-speaker triples yields one `(start, end, speaker)` segment spanning
from the run's first interval start to the run's last interval end. -/
def specMergeRuns : List Triple → List (ℚ × ℚ × String)
  | [] => []
  | t :: ts => mergeAux t.start t.stop t.speaker ts

example : format_diarization_output [⟨0, 2, "A"⟩] =
    ⟨["A"], [(0, 2)]⟩ := by decide

example : format_diarization_output
    [⟨0, 1, "A"⟩, ⟨1, 2, "A"⟩, ⟨2, 3, "B"⟩] =
    ⟨["A", "B"], [(0, 2), (2, 3)]⟩ := by decide

example : format_diarization_output
    [⟨0, 1, "A"⟩, ⟨1, 2, "B"⟩, ⟨2, 3, "A"⟩] =
    ⟨["A", "B", "A"], [(0, 1), (1, 2), (2, 3)]⟩ := by decide

example : format_diarization_output [] = ⟨[], []⟩ := by decide

theorem pyEnum_cons {α : Type} (i : ℕ) (a : α) (as : List α) :
    pyEnum i (a :: as) = (i, a) :: pyEnum (i + 1) as := rfl

theorem foldl_normStep_eq_runsFrom (n : ℕ) :
    ∀ (ts : List Triple) (j : ℕ) (out : List (ℕ × ℕ × String)) (start : ℕ) (cur : String),
      1 ≤ j → j + ts.length = n → ts ≠ [] →
      (List.foldl (normStep n) ⟨out, start, cur⟩ (pyEnum j ts)).out
        = out ++ runsFrom start j cur ts := by
  intro ts
  induction ts with
  | nil => intro j out start cur _ _ hne; exact absurd rfl hne
  | cons t ts ih =>
    intro j out start cur hj hn hne
    have hj0 : ¬ j = 0 := by omega
    rw [List.length_cons] at hn
    by_cases hts : ts = []
    · subst hts
      rw [List.length_nil] at hn
      have h1 : (j = 0) = False := by simp [hj0]
      have h2 : (j = n - 1) = True := by simp; omega
      by_cases hsp : t.speaker = cur
      · have h3 : (t.speaker = cur) = True := by simp [hsp]
        simp [pyEnum, normStep, h1, h2, h3, runsFrom, hsp]
      · have h3 : (t.speaker = cur) = False := by simp [hsp]
        simp [pyEnum, normStep, h1, h2, h3, runsFrom, hsp]
    · have hlen : 1 ≤ ts.length := by
        cases ts with
        | nil => exact absurd rfl hts
        | cons u us => simp
      have hjn : ¬ j = n - 1 := by omega
      rw [pyEnum_cons, List.foldl_cons]
      by_cases hsp : t.speaker = cur
      · have hstep : normStep n ⟨out, start, cur⟩ (j, t) = ⟨out, start, cur⟩ := by
          simp [normStep, hj0, hsp, hjn]
        rw [hstep, ih (j + 1) out start cur (by omega) (by omega) hts]
        simp [runsFrom, hsp]
      · have hstep : normStep n ⟨out, start, cur⟩ (j, t)
            = ⟨out ++ [(start, j - 1, cur)], j, t.speaker⟩ := by
          simp [normStep, hj0, hsp, hjn]
        rw [hstep, ih (j + 1) (out ++ [(start, j - 1, cur)]) j t.speaker (by omega) (by omega) hts]
        simp [runsFrom, hsp]

theorem normalizedOutput_eq_runsFrom (t : Triple) (ts : List Triple) :
    normalizedOutput (t :: ts) = runsFrom 0 1 t.speaker ts := by
  by_cases hts : ts = []
  · subst hts
    simp [normalizedOutput, runsFrom, List.getD]
  · have hlen : 1 ≤ ts.length := by
      cases ts with
      | nil => exact absurd rfl hts
      | cons u us => simp
    have hne : ¬ (t :: ts).length = 1 := by
      rw [List.length_cons]; omega
    rw [normalizedOutput, if_neg hne, pyEnum_cons, List.foldl_cons]
    have h0n : ¬ (0 : ℕ) = ts.length := by omega
    have hstep : normStep (t :: ts).length ⟨[], 0, ""⟩ (0, t)
        = ⟨[], 0, t.speaker⟩ := by
      simp [normStep, List.length_cons, h0n]
    rw [hstep,
      foldl_normStep_eq_runsFrom (t :: ts).length ts 1 [] 0 t.speaker
        (by omega) (by rw [List.length_cons]; omega) hts]
    simp

theorem runsFrom_map_eq_mergeAux (L : List Triple) :
    ∀ (ts : List Triple) (j start : ℕ) (cur : String),
      start < j → L.drop j = ts →
      (runsFrom start j cur ts).map
          (fun r => ((L.getD r.1 ⟨0, 0, ""⟩).start, (L.getD r.2.1 ⟨0, 0, ""⟩).stop, r.2.2))
        = mergeAux (L.getD start ⟨0, 0, ""⟩).start (L.getD (j - 1) ⟨0, 0, ""⟩).stop cur ts := by
  intro ts
  induction ts with
  | nil => intro j start cur _ _; simp [runsFrom, mergeAux]
  | cons t ts ih =>
    intro j start cur hsj hdrop
    have hget : L[j]? = some t := by
      rw [← List.head?_drop, hdrop]
      rfl
    have hdrop' : L.drop (j + 1) = ts := by
      rw [← List.drop_drop, hdrop]
      rfl
    by_cases hsp : t.speaker = cur
    · rw [runsFrom, if_pos hsp, mergeAux, if_pos hsp,
        ih (j + 1) start cur (by omega) hdrop']
      simp [List.getD_eq_getElem?_getD, hget]
    · rw [runsFrom, if_neg hsp, mergeAux, if_neg hsp, List.map_cons,
        ih (j + 1) j t.speaker (by omega) hdrop']
      simp [List.getD_eq_getElem?_getD, hget]

theorem format_eq_specMergeRuns (t : Triple) (ts : List Triple) :
    format_diarization_output (t :: ts) =
      { speakers := (specMergeRuns (t :: ts)).map (fun r => r.2.2),
        segments := (specMergeRuns (t :: ts)).map (fun r => (r.1, r.2.1)) } := by
  have h2 := runsFrom_map_eq_mergeAux (t :: ts) ts 1 0 t.speaker (by omega) (by rfl)
  have hget0 : (t :: ts).getD 0 ⟨0, 0, ""⟩ = t := rfl
  rw [hget0] at h2
  have hmap : (runsFrom 0 1 t.speaker ts).map
      (fun r => (((t :: ts).getD r.1 ⟨0, 0, ""⟩).start,
        ((t :: ts).getD r.2.1 ⟨0, 0, ""⟩).stop, r.2.2))
      = specMergeRuns (t :: ts) := by
    rw [h2]; rfl
  rw [format_diarization_output, normalizedOutput_eq_runsFrom, ← hmap,
    List.map_map, List.map_map]
  rfl

theorem mergeAux_head? :
    ∀ (ts : List Triple) (a b : ℚ) (cur : String),
      ∃ b', (mergeAux a b cur ts).head? = some (a, b', cur) := by
  intro ts
  induction ts with
  | nil => intro a b cur; exact ⟨b, rfl⟩
  | cons t ts ih =>
    intro a b cur
    by_cases hsp : t.speaker = cur
    · rw [mergeAux, if_pos hsp]
      exact ih a t.stop cur
    · rw [mergeAux, if_neg hsp]
      exact ⟨b, rfl⟩

theorem mergeAux_speakers_chain :
    ∀ (ts : List Triple) (a b : ℚ) (cur : String),
      List.Chain' (fun x y => x ≠ y) ((mergeAux a b cur ts).map (fun r => r.2.2)) := by
  intro ts
  induction ts with
  | nil => intro a b cur; exact List.chain'_singleton _
  | cons t ts ih =>
    intro a b cur
    by_cases hsp : t.speaker = cur
    · rw [mergeAux, if_pos hsp]
      exact ih a t.stop cur
    · rw [mergeAux, if_neg hsp, List.map_cons, List.chain'_cons']
      refine ⟨?_, ih t.start t.stop t.speaker⟩
      intro y hy
      obtain ⟨b', hb'⟩ := mergeAux_head? ts t.start t.stop t.speaker
      rw [List.head?_map, hb'] at hy
      simp at hy
      subst hy
      exact fun h => hsp h.symm

theorem mergeAux_chain_tile :
    ∀ (ts : List Triple) (a b : ℚ) (cur : String),
      (∀ u ∈ ts.head?, u.start = b) →
      List.Chain' (fun x y : Triple => x.stop = y.start) ts →
      List.Chain' (fun x y : ℚ × ℚ × String => x.2.1 = y.1) (mergeAux a b cur ts) := by
  intro ts
  induction ts with
  | nil => intro a b cur _ _; exact List.chain'_singleton _
  | cons t ts ih =>
    intro a b cur hhead hchain
    rw [List.chain'_cons'] at hchain
    by_cases hsp : t.speaker = cur
    · rw [mergeAux, if_pos hsp]
      refine ih a t.stop cur ?_ hchain.2
      intro u hu
      exact (hchain.1 u hu).symm
    · rw [mergeAux, if_neg hsp, List.chain'_cons']
      refine ⟨?_, ih t.start t.stop t.speaker (fun u hu => (hchain.1 u hu).symm) hchain.2⟩
      intro y hy
      obtain ⟨b', hb'⟩ := mergeAux_head? ts t.start t.stop t.speaker
      rw [hb'] at hy
      simp at hy
      subst hy
      exact (hhead t rfl).symm

/-- Accumulated end time of the final merged run: the `stop` of the last
triple, or the accumulator `b` when no triples remain. -/
def lastStop (b : ℚ) : List Triple → ℚ
  | [] => b
  | t :: ts => lastStop t.stop ts

theorem mergeAux_getLast?_stop :
    ∀ (ts : List Triple) (a b : ℚ) (cur : String),
      (mergeAux a b cur ts).getLast?.map (fun r => r.2.1) = some (lastStop b ts) := by
  intro ts
  induction ts with
  | nil => intro a b cur; rfl
  | cons t ts ih =>
    intro a b cur
    by_cases hsp : t.speaker = cur
    · rw [mergeAux, if_pos hsp, lastStop]
      exact ih a t.stop cur
    · rw [mergeAux, if_neg hsp, lastStop]
      have hne : mergeAux t.start t.stop t.speaker ts ≠ [] := by
        obtain ⟨b', hb'⟩ := mergeAux_head? ts t.start t.stop t.speaker
        intro h
        rw [h] at hb'
        exact Option.noConfusion hb'
      rw [show ((a, b, cur) :: mergeAux t.start t.stop t.speaker ts).getLast?
            = (mergeAux t.start t.stop t.speaker ts).getLast? from ?_]
      · exact ih t.start t.stop t.speaker
      · cases hm : mergeAux t.start t.stop t.speaker ts with
        | nil => exact absurd hm hne
        | cons u us => exact List.getLast?_cons_cons

theorem lastStop_eq_getLast? :
    ∀ (ts : List Triple) (t : Triple),
      some (lastStop t.stop ts) = ((t :: ts).getLast?).map (fun u => u.stop) := by
  intro ts
  induction ts with
  | nil => intro t; rfl
  | cons u ts ih =>
    intro t
    rw [lastStop, ih u, List.getLast?_cons_cons]

/-- Claim C1: for every non-empty raw diarization trace, the output of
`format_diarization_output` has no two consecutive entries with the same
speaker label, and the `speakers` and `segments` lists have equal length
(index-aligned by the pairwise construction). -/
theorem C1_no_consecutive_duplicate_speakers (t : Triple) (ts : List Triple) :
    List.Chain' (fun x y => x ≠ y) (format_diarization_output (t :: ts)).speakers ∧
    (format_diarization_output (t :: ts)).speakers.length
      = (format_diarization_output (t :: ts)).segments.length := by
  constructor
  · rw [format_eq_specMergeRuns]
    exact mergeAux_speakers_chain ts t.start t.stop t.speaker
  · simp [format_diarization_output]

/-- Claim C2: `format_diarization_output` merges exactly the strictly
consecutive same-speaker runs — on every non-empty trace it agrees with
the specification-side `specMergeRuns`, which emits one segment per
maximal consecutive same-speaker run, spanning the run's first interval
start to its last interval end; in particular the two example traces
from the spec evaluate as claimed. -/
theorem C2_merges_exactly_consecutive_runs :
    (∀ (t : Triple) (ts : List Triple),
      format_diarization_output (t :: ts) =
        { speakers := (specMergeRuns (t :: ts)).map (fun r => r.2.2),
          segments := (specMergeRuns (t :: ts)).map (fun r => (r.1, r.2.1)) }) ∧
    format_diarization_output [⟨0, 1, "A"⟩, ⟨1, 2, "A"⟩, ⟨2, 3, "B"⟩]
      = ⟨["A", "B"], [(0, 2), (2, 3)]⟩ ∧
    format_diarization_output [⟨0, 1, "A"⟩, ⟨1, 2, "B"⟩, ⟨2, 3, "A"⟩]
      = ⟨["A", "B", "A"], [(0, 1), (1, 2), (2, 3)]⟩ :=
  ⟨format_eq_specMergeRuns, by decide, by decide⟩

/-- Claim C3, counterexample: on the non-empty trace
`[(0,1,"A"), (5,6,"B")]` the output segments are `[[0,1],[5,6]]`, which
do NOT tile the span from the first interval's start to the last
interval's end — there is a gap between consecutive output segments, so
the claim as stated (for every non-empty trace) is false. -/
theorem C3_counterexample_gap_not_covered :
    (format_diarization_output [⟨0, 1, "A"⟩, ⟨5, 6, "B"⟩]).segments
        = [(0, 1), (5, 6)] ∧
    ¬ List.Chain' (fun s u : ℚ × ℚ => s.2 = u.1)
        (format_diarization_output [⟨0, 1, "A"⟩, ⟨5, 6, "B"⟩]).segments := by
  have hseg : (format_diarization_output [⟨0, 1, "A"⟩, ⟨5, 6, "B"⟩]).segments
      = [(0, 1), (5, 6)] := by decide
  refine ⟨hseg, ?_⟩
  rw [hseg, List.chain'_cons]
  intro h
  have h1 : (1 : ℚ) = 5 := h.1
  norm_num at h1

/-- Claim C3, amended: for every non-empty raw diarization trace whose
consecutive input intervals are contiguous (each interval's end equals
the next interval's start), the output segments of
`format_diarization_output`, taken in order, cover exactly the time span
from the first input interval's start to the last input interval's end,
with no gap between consecutive output segments. -/
theorem C3_contiguous_trace_coverage (t : Triple) (ts : List Triple)
    (hcont : List.Chain' (fun x y : Triple => x.stop = y.start) (t :: ts)) :
    (format_diarization_output (t :: ts)).segments.head?.map Prod.fst = some t.start ∧
    (format_diarization_output (t :: ts)).segments.getLast?.map Prod.snd
      = ((t :: ts).getLast?).map (fun u => u.stop) ∧
    List.Chain' (fun s u : ℚ × ℚ => s.2 = u.1)
      (format_diarization_output (t :: ts)).segments := by
  rw [format_eq_specMergeRuns]
  rw [List.chain'_cons'] at hcont
  refine ⟨?_, ?_, ?_⟩
  · show ((mergeAux t.start t.stop t.speaker ts).map
        (fun r => (r.1, r.2.1))).head?.map Prod.fst = some t.start
    obtain ⟨b', hb'⟩ := mergeAux_head? ts t.start t.stop t.speaker
    rw [List.head?_map, hb']
    rfl
  · show ((mergeAux t.start t.stop t.speaker ts).map
        (fun r => (r.1, r.2.1))).getLast?.map Prod.snd
      = ((t :: ts).getLast?).map (fun u => u.stop)
    rw [List.getLast?_map, Option.map_map]
    exact (mergeAux_getLast?_stop ts t.start t.stop t.speaker).trans
      (lastStop_eq_getLast? ts t)
  · show List.Chain' (fun s u : ℚ × ℚ => s.2 = u.1)
      ((mergeAux t.start t.stop t.speaker ts).map (fun r => (r.1, r.2.1)))
    rw [List.chain'_map]
    exact mergeAux_chain_tile ts t.start t.stop t.speaker
      (fun u hu => (hcont.1 u hu).symm) hcont.2

/-- Witness for C3: the theorem applied to the concrete contiguous trace
`[(0,1,"A"), (1,2,"B")]`. -/
theorem C3_contiguous_trace_coverage_witness :
    List.Chain' (fun x y : Triple => x.stop = y.start)
        [⟨0, 1, "A"⟩, ⟨1, 2, "B"⟩] ∧
    ((format_diarization_output [⟨0, 1, "A"⟩, ⟨1, 2, "B"⟩]).segments.head?.map
        Prod.fst = some (0 : ℚ) ∧
      (format_diarization_output [⟨0, 1, "A"⟩, ⟨1, 2, "B"⟩]).segments.getLast?.map
          Prod.snd
        = (([⟨0, 1, "A"⟩, ⟨1, 2, "B"⟩] : List Triple).getLast?).map (fun u => u.stop) ∧
      List.Chain' (fun s u : ℚ × ℚ => s.2 = u.1)
        (format_diarization_output [⟨0, 1, "A"⟩, ⟨1, 2, "B"⟩]).segments) :=
  have hcont : List.Chain' (fun x y : Triple => x.stop = y.start)
      [⟨0, 1, "A"⟩, ⟨1, 2, "B"⟩] :=
    List.chain'_cons.mpr ⟨rfl, List.chain'_singleton _⟩
  ⟨hcont, C3_contiguous_trace_coverage ⟨0, 1, "A"⟩ [⟨1, 2, "B"⟩] hcont⟩

/-- Claim C4: for every single-element raw diarization trace,
`format_diarization_output` emits exactly one segment spanning the sole
interval with its speaker; in particular `[(0,2,"A")]` yields
`{"speakers": ["A"], "segments": [[0,2]]}`. -/
theorem C4_single_element_trace :
    (∀ t : Triple,
      format_diarization_output [t] = ⟨[t.speaker], [(t.start, t.stop)]⟩) ∧
    format_diarization_output [⟨0, 2, "A"⟩] = ⟨["A"], [(0, 2)]⟩ := by
  constructor
  · intro t
    simp [format_diarization_output, normalizedOutput, List.getD]
  · decide

/-- Claim C5: for the empty raw diarization trace,
`format_diarization_output` returns empty `speakers` and `segments`
lists rather than failing. -/
theorem C5_empty_trace : format_diarization_output [] = ⟨[], []⟩ := by decide

/-- Default target sample rate of `load_audio` (`SAMPLE_RATE = 16000`). -/
def SAMPLE_RATE : ℤ := 16000

/-- Python / torch sequence slicing `l[a:b]` with unit step: a negative
bound counts from the end of the sequence, and the resolved bounds are
clamped to `[0, len(l)]`; an empty slice results when the resolved lower
bound is not below the resolved upper bound. -/
def pySlice {α : Type} (l : List α) (a b : ℤ) : List α :=
  let n : ℤ := l.length
  let lo : ℤ := if a < 0 then max 0 (n + a) else min a n
  let hi : ℤ := if b < 0 then max 0 (n + b) else min b n
  (l.take hi.toNat).drop lo.toNat

/-- Python's `int()` conversion of an exact numeric value: truncation
toward zero. -/
def pyTrunc (q : ℚ) : ℤ := if q < 0 then ⌈q⌉ else ⌊q⌋

/-- The data held by an `AudioProcessor`: the wrapped waveform (a
sequence of samples) and its sample rate.  Device placement is a
construction-time configuration option and is not part of the logical
data model. -/
structure AudioProcessor where
  waveform : List ℚ
  sr : ℤ
deriving DecidableEq

/-- `AudioProcessor.cut`: `start = int(start * sr)`,
`end = torch.ceil(end * sr)` converted to int (exact, since `ceil`
already yields an integer), then `self.waveform[start:end]`. -/
def AudioProcessor.cut (p : AudioProcessor) (start stop : ℚ) : List ℚ :=
  let s : ℤ := pyTrunc (start * (p.sr : ℚ))
  let e : ℤ := ⌈stop * (p.sr : ℚ)⌉
  pySlice p.waveform s e

/-- A Python value passed as the `sr` argument of
`AudioProcessor.__init__`: either a scalar `int` or a list of rates. -/
inductive SRValue where
  | int (n : ℤ)
  | listOf (ns : List ℤ)
deriving DecidableEq

/-- `AudioProcessor.__init__`: stores the waveform and the sample rate,
then checks `isinstance(self.sr, int)` and raises `ValueError`
otherwise.  A raising constructor hands no instance to the caller, so
the fallible construction is modelled as `Except`: on error no
`AudioProcessor` value exists. -/
def AudioProcessor.init (waveform : List ℚ) (sr : SRValue) :
    Except String AudioProcessor :=
  match sr with
  | .int n => .ok ⟨waveform, n⟩
  | .listOf ns =>
    .error ("Sample rate should be a single value of type int,not "
      ++ toString ns.length ++ " and type list")

/-- Little-endian signed 16-bit interpretation of one byte pair, as
`np.frombuffer(out, np.int16)` performs on the decoder's `s16le`
output. -/
def int16OfPair (lo hi : ℕ) : ℤ :=
  let u : ℤ := lo + 256 * hi
  if u < 32768 then u else u - 65536

/-- Interpret a byte stream as a sequence of little-endian signed 16-bit
integers. -/
def bytesToInt16 : List ℕ → List ℤ
  | lo :: hi :: rest => int16OfPair lo hi :: bytesToInt16 rest
  | _ => []

/-- `AudioProcessor.load_audio`, with the external ffmpeg decoder
modelled as an oracle result: raw `s16le` bytes on success, the
diagnostic text on non-zero exit.  On failure the `ffmpeg.Error` is
re-raised as `RuntimeError` wrapping the decoder's stderr; on success
the byte buffer is interpreted as int16, converted to float and scaled
by `1/32768`, and returned together with the requested sample rate. -/
def load_audio (ffmpegResult : Except String (List ℕ)) (sr : ℤ) :
    Except String (List ℚ × ℤ) :=
  match ffmpegResult with
  | .error e => .error ("Failed to load audio: " ++ e)
  | .ok out => .ok ((bytesToInt16 out).map (fun s : ℤ => (s : ℚ) / 32768), sr)

/-- `Diariser._get_diarisation_kwargs`: keep exactly the keyword
arguments whose key occurs in the accepted-name list (in the source the
name list is introspected from the external model's inference entry
point; it is passed here as `possible_kwargs`). -/
def get_diarisation_kwargs {V : Type} (possible_kwargs : List String)
    (kwargs : List (String × V)) : List (String × V) :=
  kwargs.filter (fun kv => possible_kwargs.contains kv.1)

/-- Claim C6, counterexample: for a negative start time, `cut` follows
Python's negative-index slicing (counting from the end of the waveform)
rather than clamping the floored index into range — on the waveform
`[10,20,30,40]` at rate 2, `cut (-1) 2` returns `[30,40]`, not the
claimed sub-sequence at the clamped index range `[max 0 (-2), 4)`. -/
theorem C6_counterexample_negative_start :
    (AudioProcessor.mk [10, 20, 30, 40] 2).cut (-1) 2 = [30, 40] ∧
    ¬ (AudioProcessor.mk [10, 20, 30, 40] 2).cut (-1) 2
        = (([10, 20, 30, 40] : List ℚ).take (⌈(2 : ℚ) * ((2 : ℤ) : ℚ)⌉).toNat).drop
            (max 0 ⌊(-1 : ℚ) * ((2 : ℤ) : ℚ)⌋).toNat := by
  have h1 : ((-1 : ℚ) * ((2 : ℤ) : ℚ)) = ((-2 : ℤ) : ℚ) := by norm_num
  have h2 : ((2 : ℚ) * ((2 : ℤ) : ℚ)) = ((4 : ℤ) : ℚ) := by norm_num
  have hcut : (AudioProcessor.mk [10, 20, 30, 40] 2).cut (-1) 2 = [30, 40] := by
    simp only [AudioProcessor.cut, h1, h2, pyTrunc, pySlice,
      Int.ceil_intCast, Int.floor_intCast]
    norm_num
    decide
  refine ⟨hcut, ?_⟩
  rw [hcut]
  simp only [h2, Int.ceil_intCast, Int.floor_intCast]
  norm_num
  decide

/-- Claim C6, amended: for nonnegative start and end times (and a
nonnegative sample rate), `AudioProcessor.cut` returns the sub-sequence
of samples at indices `[floor(start * sr), ceil(end * sr))`, with
out-of-range indices truncated by slicing semantics rather than
erroring; in particular `cut 1 (5/2)` at 16000 Hz returns the samples at
indices `[16000, 40000)`.  (For negative times the source instead
follows Python's negative-index slicing, counting from the end.) -/
theorem C6_cut_floor_ceil_indices :
    (∀ (p : AudioProcessor) (start stop : ℚ), 0 ≤ start → 0 ≤ stop → 0 ≤ p.sr →
      p.cut start stop
        = (p.waveform.take (⌈stop * (p.sr : ℚ)⌉).toNat).drop
            (⌊start * (p.sr : ℚ)⌋).toNat) ∧
    (∀ w : List ℚ, (AudioProcessor.mk w 16000).cut 1 (5 / 2)
      = (w.take 40000).drop 16000) := by
  have main : ∀ (p : AudioProcessor) (start stop : ℚ),
      0 ≤ start → 0 ≤ stop → 0 ≤ p.sr →
      p.cut start stop
        = (p.waveform.take (⌈stop * (p.sr : ℚ)⌉).toNat).drop
            (⌊start * (p.sr : ℚ)⌋).toNat := by
    intro p start stop hs he hsr
    have hsr' : (0 : ℚ) ≤ (p.sr : ℚ) := by exact_mod_cast hsr
    have hss : 0 ≤ start * (p.sr : ℚ) := mul_nonneg hs hsr'
    have hes : 0 ≤ stop * (p.sr : ℚ) := mul_nonneg he hsr'
    have hfl : 0 ≤ ⌊start * (p.sr : ℚ)⌋ := Int.floor_nonneg.mpr hss
    have hcl : 0 ≤ ⌈stop * (p.sr : ℚ)⌉ := Int.ceil_nonneg hes
    simp only [AudioProcessor.cut, pySlice, pyTrunc,
      if_neg (not_lt.mpr hss), if_neg (not_lt.mpr hfl), if_neg (not_lt.mpr hcl)]
    have h1 : (min ⌈stop * (p.sr : ℚ)⌉ (p.waveform.length : ℤ)).toNat
        = min (⌈stop * (p.sr : ℚ)⌉.toNat) p.waveform.length := by omega
    have h2 : (min ⌊start * (p.sr : ℚ)⌋ (p.waveform.length : ℤ)).toNat
        = min (⌊start * (p.sr : ℚ)⌋.toNat) p.waveform.length := by omega
    rw [h1, h2, ← List.take_take, List.take_length]
    rcases le_or_lt (⌊start * (p.sr : ℚ)⌋.toNat) p.waveform.length with hle | hgt
    · rw [min_eq_left hle]
    · have hlen : (p.waveform.take (⌈stop * (p.sr : ℚ)⌉.toNat)).length
          ≤ p.waveform.length := by
        rw [List.length_take]; omega
      rw [min_eq_right hgt.le, List.drop_eq_nil_of_le hlen,
        List.drop_eq_nil_of_le (hlen.trans hgt.le)]
  refine ⟨main, ?_⟩
  intro w
  have h := main ⟨w, 16000⟩ 1 (5 / 2) (by norm_num) (by norm_num) (by norm_num)
  have hc : (⌈(5 / 2 : ℚ) * (((16000 : ℤ) : ℚ))⌉ : ℤ) = 40000 := by
    rw [show ((5 / 2 : ℚ) * (((16000 : ℤ) : ℚ))) = ((40000 : ℤ) : ℚ) by norm_num,
      Int.ceil_intCast]
  have hf : (⌊(1 : ℚ) * (((16000 : ℤ) : ℚ))⌋ : ℤ) = 16000 := by
    rw [show ((1 : ℚ) * (((16000 : ℤ) : ℚ))) = ((16000 : ℤ) : ℚ) by norm_num,
      Int.floor_intCast]
  rw [h, hc, hf]
  rfl

/-- Witness for C6: the amended theorem applied to the concrete waveform
`[1,2,3]` at rate 2 with `cut (1/2) 1`, together with the evaluated
result `[2]` (indices `[1, 2)`). -/
theorem C6_cut_floor_ceil_indices_witness :
    (AudioProcessor.mk [1, 2, 3] 2).cut (1 / 2) 1
        = (([1, 2, 3] : List ℚ).take (⌈(1 : ℚ) * (((2 : ℤ)) : ℚ)⌉).toNat).drop
            (⌊(1 / 2 : ℚ) * (((2 : ℤ)) : ℚ)⌋).toNat ∧
    (AudioProcessor.mk [1, 2, 3] 2).cut (1 / 2) 1 = [2] := by
  have h := C6_cut_floor_ceil_indices.1 ⟨[1, 2, 3], 2⟩ (1 / 2) 1
    (by norm_num) (by norm_num) (by norm_num)
  refine ⟨h, ?_⟩
  rw [h]
  rw [show ((1 : ℚ) * (((2 : ℤ)) : ℚ)) = ((2 : ℤ) : ℚ) by norm_num,
    show ((1 / 2 : ℚ) * (((2 : ℤ)) : ℚ)) = ((1 : ℤ) : ℚ) by norm_num,
    Int.ceil_intCast, Int.floor_intCast]
  rfl

/-- Claim C7: constructing an `AudioProcessor` with a sample rate that is
not a single scalar integer (e.g. a list of rates) fails with the
`ValueError` of `__init__` (the spec's `InvalidSampleRate`), handing no
instance to the caller; constructing with a scalar integer sample rate
succeeds and stores the waveform and rate. -/
theorem C7_init_validates_sample_rate :
    (∀ (w : List ℚ) (ns : List ℤ),
      ∃ msg, AudioProcessor.init w (.listOf ns) = .error msg) ∧
    (∀ (w : List ℚ) (n : ℤ), AudioProcessor.init w (.int n) = .ok ⟨w, n⟩) :=
  ⟨fun _ ns => ⟨"Sample rate should be a single value of type int,not "
      ++ toString ns.length ++ " and type list", rfl⟩,
    fun _ _ => rfl⟩

theorem int16OfPair_range (lo hi : ℕ) (hlo : lo < 256) (hhi : hi < 256) :
    -32768 ≤ int16OfPair lo hi ∧ int16OfPair lo hi ≤ 32767 := by
  simp only [int16OfPair]
  split <;> omega

theorem bytesToInt16_range :
    ∀ (bs : List ℕ), (∀ b ∈ bs, b < 256) →
      ∀ s ∈ bytesToInt16 bs, -32768 ≤ s ∧ s ≤ 32767
  | [] => by intro _ s hs; simp [bytesToInt16] at hs
  | [b] => by intro _ s hs; simp [bytesToInt16] at hs
  | lo :: hi :: rest => by
    intro h s hs
    have hlo : lo < 256 := h lo (by simp)
    have hhi : hi < 256 := h hi (by simp)
    simp only [bytesToInt16, List.mem_cons] at hs
    rcases hs with h1 | h2
    · rw [h1]
      exact int16OfPair_range lo hi hlo hhi
    · exact bytesToInt16_range rest (fun b hb => h b (by simp [hb])) s h2

/-- Claim C8: on successful decoding, `load_audio` returns the waveform
obtained by interpreting the decoder's bytes as signed 16-bit integers
and dividing each sample by 32768 — hence every sample lies in
`[-1, 1]` — together with a declared sample rate equal to the requested
target rate. -/
theorem C8_load_audio_normalized (bytes : List ℕ) (sr : ℤ)
    (h : ∀ b ∈ bytes, b < 256) :
    ∃ wf, load_audio (.ok bytes) sr = .ok (wf, sr) ∧
      wf = (bytesToInt16 bytes).map (fun s : ℤ => (s : ℚ) / 32768) ∧
      ∀ x ∈ wf, -1 ≤ x ∧ x ≤ 1 := by
  refine ⟨(bytesToInt16 bytes).map (fun s : ℤ => (s : ℚ) / 32768), rfl, rfl, ?_⟩
  intro x hx
  obtain ⟨s, hs, rfl⟩ := List.mem_map.mp hx
  obtain ⟨hlb, hub⟩ := bytesToInt16_range bytes h s hs
  constructor
  · rw [le_div_iff₀ (by norm_num : (0 : ℚ) < 32768)]
    have : ((-32768 : ℤ) : ℚ) ≤ (s : ℚ) := by exact_mod_cast hlb
    calc (-1 : ℚ) * 32768 = ((-32768 : ℤ) : ℚ) := by norm_num
    _ ≤ (s : ℚ) := this
  · rw [div_le_one (by norm_num : (0 : ℚ) < 32768)]
    have : (s : ℚ) ≤ ((32767 : ℤ) : ℚ) := by exact_mod_cast hub
    calc (s : ℚ) ≤ ((32767 : ℤ) : ℚ) := this
    _ ≤ 32768 := by norm_num

/-- Witness for C8: the theorem applied to the concrete byte stream
`[0, 64]` (one sample, `0x4000 = 16384`) at the default rate 16000. -/
theorem C8_load_audio_normalized_witness :
    (∀ b ∈ ([0, 64] : List ℕ), b < 256) ∧
    ∃ wf, load_audio (.ok [0, 64]) 16000 = .ok (wf, 16000) ∧
      wf = (bytesToInt16 [0, 64]).map (fun s : ℤ => (s : ℚ) / 32768) ∧
      ∀ x ∈ wf, -1 ≤ x ∧ x ≤ 1 :=
  ⟨by decide, C8_load_audio_normalized [0, 64] 16000 (by decide)⟩

/-- Claim C9: `load_audio` fails exactly when the external decoder
fails — a decoder error is re-raised wrapping the decoder's diagnostic
text and no partial waveform is returned (the error result carries no
waveform at all), while a successful decode raises no error. -/
theorem C9_load_audio_error_propagation :
    (∀ (msg : String) (sr : ℤ),
      load_audio (.error msg) sr = .error ("Failed to load audio: " ++ msg)) ∧
    (∀ (bytes : List ℕ) (sr : ℤ), ∃ out, load_audio (.ok bytes) sr = .ok out) :=
  ⟨fun _ _ => rfl, fun bytes sr =>
    ⟨((bytesToInt16 bytes).map (fun s : ℤ => (s : ℚ) / 32768), sr), rfl⟩⟩

/-- Claim C10: the keyword-argument filter of `diarize` returns exactly
the sub-dictionary of entries whose key is among the accepted parameter
names, with values unchanged and order preserved (a sublist of the
input); unknown keys are dropped silently — the filter is total and
never errors. -/
theorem C10_kwargs_filtered_exactly {V : Type} (possible : List String)
    (kwargs : List (String × V)) :
    (∀ (k : String) (v : V),
      (k, v) ∈ get_diarisation_kwargs possible kwargs
        ↔ (k, v) ∈ kwargs ∧ k ∈ possible) ∧
    (get_diarisation_kwargs possible kwargs).Sublist kwargs := by
  constructor
  · intro k v
    rw [get_diarisation_kwargs, List.mem_filter]
    constructor
    · rintro ⟨hmem, hcont⟩
      exact ⟨hmem, by simpa using hcont⟩
    · rintro ⟨hmem, hk⟩
      exact ⟨hmem, by simpa using hk⟩
  · exact List.filter_sublist _
